import Mathlib

/-!
Shallow embedding of `actions/read-ci-config/src/process_ci_config.py` and
`actions/read-ci-config/src/auth.py` from the `rocks-template-actions`
repository, together with theorems settling the specification claims about
configuration validation and matrix generation.

Python strings are modelled by `String`, lists by `List`, dicts by ordered
association lists (Python dicts preserve insertion order), `frozenset`
equality by mutual list membership, and raised exceptions by
`Except String`.  The external collaborators (the per-directory
`rockcraft.yaml` metadata, the `spread.yaml` existence check and the glob
result used by wildcard expansion) are passed in explicitly.
-/

namespace RockCI

/-- Surround a string with single-quote characters, as the Python f-string
error messages do. -/
def sq (s : String) : String := "\x27" ++ s ++ "\x27"

/-! ### auth.py -/

/-- The fixed marker that credential references must start with. -/
def secretMarker : String := "secrets."

/-- Python `v.startswith(pre)`: the characters of `pre` are a prefix of
the characters of `v`. -/
def strStartsWith (v pre : String) : Bool := pre.data.isPrefixOf v.data

/-- Python `v.removeprefix("secrets.")` on a string known to start with
the marker: drop the marker's characters. -/
def stripMarker (v : String) : String :=
  String.mk (v.data.drop secretMarker.data.length)

/-- Model of `BasicAuth._ensure_secret_format` / `BearerAuth._ensure_secret_format`:
a credential reference must be a non-empty string starting with `secrets.`;
the stored value is the reference with that marker removed
(`v.removeprefix` in the source). -/
def ensure_secret_format (v : String) : Except String String :=
  if v = "" then .error ("Credential name must be a non-empty string.")
  else if strStartsWith v secretMarker then .ok (stripMarker v)
  else .error ("Credential name must start with " ++ sq secretMarker)

/-- Model of `AuthType` enumeration from auth.py. -/
inductive AuthType
  | basic
  | bearer
  | ecr
  | ecrPublic
deriving DecidableEq, Repr

/-- A validated auth configuration: one of the four variants of auth.py
(`BasicAuth`, `BearerAuth`, `ECRAuth`, `ECRPublicAuth`), with the credential
fields already stripped of the `secrets.` marker. -/
inductive AuthConfig
  | basic (username password : String)
  | bearer (token : String)
  | ecr (region username password : String)
  | ecrPublic (region username password : String)
deriving DecidableEq, Repr

/-- The raw (pre-validation) auth config payload.  `ecr` covers both the
`ecr` and `ecr-public` models, whose field sets coincide. -/
inductive RawAuthConfig
  | basic (username password : String)
  | bearer (token : String)
  | ecr (region username password : String)
deriving DecidableEq, Repr

/-- Validation of a `BasicAuth` model: pydantic runs the
`_ensure_secret_format` field validator on `username`, then on `password`. -/
def validateBasicAuth (username password : String) : Except String AuthConfig := do
  let u ← ensure_secret_format username
  let p ← ensure_secret_format password
  .ok (.basic u p)

/-- Validation of a `BearerAuth` model. -/
def validateBearerAuth (token : String) : Except String AuthConfig := do
  let t ← ensure_secret_format token
  .ok (.bearer t)

/-- Validation of an `ECRAuth` model: `username` and `password` inherit the
`_ensure_secret_format` validator from `BasicAuth`; `region` has no
validator. -/
def validateECRAuth (region username password : String) :
    Except String AuthConfig := do
  let u ← ensure_secret_format username
  let p ← ensure_secret_format password
  .ok (.ecr region u p)

/-- Validation of an `ECRPublicAuth` model (same fields and validators as
`ECRAuth`, distinct tag). -/
def validateECRPublicAuth (region username password : String) :
    Except String AuthConfig := do
  let u ← ensure_secret_format username
  let p ← ensure_secret_format password
  .ok (.ecrPublic region u p)

/-! ### Raw values for RegistryConfigEntry.auth -/

/-- A raw YAML value for the `auth` field of a registry entry: either a
list of entries or some non-list value
(`RegistryConfigEntry._unpack_auth_list` checks `isinstance(v, list)`). -/
inductive RawListValue (α : Type)
  | list (xs : List α)
  | nonList
deriving DecidableEq, Repr

/-- Model of `RegistryConfigEntry._unpack_auth_list`: `auth` must be a list with
exactly one entry; that entry is passed on. -/
def unpack_auth_list {α : Type} : RawListValue α → Except String α
  | .nonList => .error ("Auth must be provided as a list.")
  | .list xs =>
    match xs with
    | [x] => .ok x
    | _ => .error ("Auth list must contain exactly one entry.")

/-- Model of `RegistrySecretEntry._ensure_method_known`: resolve the `method` string
to an `AuthType`, failing on an unknown method. -/
def parseAuthType (v : String) : Except String AuthType :=
  if v = "basic" then .ok .basic
  else if v = "bearer" then .ok .bearer
  else if v = "ecr" then .ok .ecr
  else if v = "ecr-public" then .ok .ecrPublic
  else .error ("Invalid auth method " ++ sq v ++
    ". Supported methods are: basic, bearer, ecr, ecr-public.")

/-- Model of `RegistrySecretEntry._ensure_config_type` (dict path): the `config`
payload is validated against the model class selected by `method`
(`AUTH_MODELS[method](**v)`); a payload whose fields do not fit that model
fails pydantic validation. -/
def validateAuthConfig (method : AuthType) (cfg : RawAuthConfig) :
    Except String AuthConfig :=
  match method, cfg with
  | .basic, .basic u p => validateBasicAuth u p
  | .bearer, .bearer t => validateBearerAuth t
  | .ecr, .ecr r u p => validateECRAuth r u p
  | .ecrPublic, .ecr r u p => validateECRPublicAuth r u p
  | _, _ => .error ("Auth config fields do not match the method.")

/-- Validated `RegistrySecretEntry`: a method tag together with the
validated config variant. -/
structure RegistrySecretEntry where
  method : AuthType
  config : AuthConfig
deriving DecidableEq, Repr

/-- Raw `RegistrySecretEntry` as parsed from YAML. -/
structure RawSecretEntry where
  method : String
  config : RawAuthConfig
deriving DecidableEq, Repr

/-- Field-by-field validation of `RegistrySecretEntry` (`method` first,
then `config`, matching pydantic field order). -/
def validateRegistrySecretEntry (raw : RawSecretEntry) :
    Except String RegistrySecretEntry := do
  let m ← parseAuthType raw.method
  let c ← validateAuthConfig m raw.config
  .ok ⟨m, c⟩

/-- Validated `RegistryConfigEntry`. -/
structure RegistryConfigEntry where
  uri : String
  auth : RegistrySecretEntry
deriving DecidableEq, Repr

/-- Raw `RegistryConfigEntry` as parsed from YAML: `auth` is a raw list
value of raw secret entries. -/
structure RawRegistryEntry where
  uri : String
  auth : RawListValue RawSecretEntry
deriving DecidableEq, Repr

/-- Validation of `RegistryConfigEntry`: `_unpack_auth_list` unpacks the
singleton list, then the entry itself is validated. -/
def validateRegistryConfigEntry (raw : RawRegistryEntry) :
    Except String RegistryConfigEntry := do
  let e ← unpack_auth_list raw.auth
  let a ← validateRegistrySecretEntry e
  .ok ⟨raw.uri, a⟩

/-! ### process_ci_config.py: GHCRConfig, ImageEntry -/

/-- Model of `GHCRConfig` after validation. -/
structure GHCRConfig where
  upload : Bool
  cve_scan : Bool
deriving DecidableEq, Repr

/-- Model of `GHCRConfig._ensure_cve_scan`: `cve-scan` may not be true when
`upload` is false. -/
def validateGHCR (upload cve_scan : Bool) : Except String GHCRConfig :=
  if cve_scan && !upload then
    .error ("cve-scan can not be true if upload is false")
  else .ok ⟨upload, cve_scan⟩

/-- The fixed `UBUNTU_PRO_SERVICES` enumeration. -/
def UBUNTU_PRO_SERVICES : List String :=
  ["esm-apps", "esm-infra", "fips-updates", "fips", "fips-preview",
   "ros", "ros-updates"]

/-- Model of `ImageEntry` after validation. -/
structure ImageEntry where
  directory : String
  pro_services : List String
  registries : List String
deriving DecidableEq, Repr

/-- Model of `ImageEntry._check_pro_services`: every listed service must belong to
`UBUNTU_PRO_SERVICES`; the error names the first invalid one.  The list is
returned unchanged (no deduplication). -/
def validateImageEntry (directory : String)
    (pro_services registries : List String) : Except String ImageEntry :=
  match pro_services.find? (fun s => !(UBUNTU_PRO_SERVICES.contains s)) with
  | some s => .error ("Invalid Ubuntu Pro service " ++ sq s)
  | none => .ok ⟨directory, pro_services, registries⟩

/-! ### CIConfig and its validators -/

/-- Model of `CIConfig` after validation.  `registries` is an insertion-ordered
association list modelling the Python dict. -/
structure CIConfig where
  version : Int
  ghcr : GHCRConfig
  registries : List (String × RegistryConfigEntry)
  images : List ImageEntry
deriving DecidableEq, Repr

/-- First (registry, directory) cross-reference violation found by the
nested loops of `CIConfig._ensure_image_registries_exist`. -/
def findMissingRegistry (keys : List String) :
    List ImageEntry → Option (String × String)
  | [] => none
  | img :: rest =>
    match img.registries.find? (fun r => !(keys.contains r)) with
    | some r => some (r, img.directory)
    | none => findMissingRegistry keys rest

/-- Model of `CIConfig._ensure_image_registries_exist`: every registry name listed
by an image must be a key of the top-level `registries` mapping; the first
violation raises, naming the registry and the image directory. -/
def ensure_image_registries_exist (keys : List String)
    (images : List ImageEntry) : Except String (List ImageEntry) :=
  match findMissingRegistry keys images with
  | some (r, d) =>
    .error ("Registry " ++ sq r ++ " in image " ++ sq d ++
      " is not defined in registries.")
  | none => .ok images

/-- Model of `os.path.dirname` (posix): everything before the last `/`, with the
head stripped of trailing slashes unless it consists only of slashes. -/
def dirname (p : String) : String :=
  let cs := p.data
  match (cs.enum.filterMap
      (fun ic => if ic.2 = '/' then some ic.1 else none)).getLast? with
  | none => ""
  | some i =>
    let head := cs.take (i + 1)
    if head.all (fun c => c = '/') then String.mk head
    else String.mk ((head.reverse.dropWhile (fun c => c = '/')).reverse)

/-- Model of `CIConfig._expand_image_directories`: an entry whose directory contains
`*` must be exactly `"*"`; it is replaced by one `ImageEntry` per glob
result for `**/rockcraft.yaml`, constructed as
`ImageEntry(directory=os.path.dirname(d), registries=image.registries)` —
note that `pro_services` is not passed, so it takes its default `[]`. -/
def expand_image_directories (globResult : List String) :
    List ImageEntry → Except String (List ImageEntry)
  | [] => .ok []
  | img :: rest =>
    if img.directory.data.contains '*' then
      if img.directory ≠ "*" then
        .error ("Wildcard " ++ sq "*" ++
          " must be the only character in directory")
      else
        match expand_image_directories globResult rest with
        | .error e => .error e
        | .ok tail =>
          .ok ((globResult.map
            (fun d => ImageEntry.mk (dirname d) [] img.registries)) ++ tail)
    else
      match expand_image_directories globResult rest with
      | .error e => .error e
      | .ok tail => .ok (img :: tail)

/-- Raw `ImageEntry` as parsed from YAML. -/
structure RawImageEntry where
  directory : String
  pro_services : List String
  registries : List String
deriving DecidableEq, Repr

/-- Raw `CIConfig` as parsed from YAML.  `None` registries/images are
already normalised to empty containers
(`_ensure_registries_dict` / `_ensure_images_list`). -/
structure RawCIConfig where
  version : Int
  ghcrUpload : Bool
  ghcrCveScan : Bool
  registries : List (String × RawRegistryEntry)
  images : List RawImageEntry
deriving DecidableEq, Repr

/-- Whole-model validation of `CIConfig`, in pydantic order: field
validation of `version`, `ghcr`, `registries` and `images` (declaration
order), then the two after-validators on `images` in definition order:
`_ensure_image_registries_exist` followed by `_expand_image_directories`.
The glob result for `**/rockcraft.yaml` is passed in explicitly. -/
def validateCIConfig (globResult : List String) (raw : RawCIConfig) :
    Except String CIConfig :=
  if raw.version ≠ 1 then
    .error ("Only version 1 of the CI configuration is supported.")
  else
    match validateGHCR raw.ghcrUpload raw.ghcrCveScan with
    | .error e => .error e
    | .ok ghcr =>
      match raw.registries.mapM (fun nr =>
          (match validateRegistryConfigEntry nr.2 with
           | .error e => .error e
           | .ok v => .ok (nr.1, v) :
            Except String (String × RegistryConfigEntry))) with
      | .error e => .error e
      | .ok registries =>
        match raw.images.mapM (fun i =>
            validateImageEntry i.directory i.pro_services i.registries) with
        | .error e => .error e
        | .ok images₀ =>
          match ensure_image_registries_exist
              (registries.map (fun nr => nr.1)) images₀ with
          | .error e => .error e
          | .ok images₁ =>
            match expand_image_directories globResult images₁ with
            | .error e => .error e
            | .ok images => .ok ⟨raw.version, ghcr, registries, images⟩

/-! ### External collaborators: rockcraft.yaml metadata and spread.yaml -/

/-- The fields of a `rockcraft.yaml` file that `image_name_and_tag` reads.
`build-base` is optional (`rockcraft["build-base"]` raises when absent). -/
structure Rockcraft where
  name : String
  version : String
  base : String
  buildBase : Option String
deriving DecidableEq, Repr

/-- The external environment: per-directory `rockcraft.yaml` metadata
(`none` models a missing/unreadable file), the `spread.yaml` existence
check, and nothing else. -/
structure Env where
  meta : String → Option Rockcraft
  spreadExists : String → Bool

/-- Model of `re.search(r"(\d2(\.|@)\d2|devel)$", base)` with the digit counts
written out: both alternatives have length five and are anchored at the end
of the string, so the search succeeds exactly when the last five characters
are `devel` or digit-digit-separator-digit-digit with separator `.` or `@`;
the captured token is those five characters. -/
def baseVersionMatch (base : String) : Option String :=
  if base.data.length < 5 then none
  else
    match base.data.drop (base.data.length - 5) with
    | [a, b, s, c, d] =>
      if a.isDigit ∧ b.isDigit ∧ (s = '.' ∨ s = '@') ∧ c.isDigit ∧ d.isDigit
      then some (String.mk [a, b, s, c, d])
      else if [a, b, s, c, d] = ("devel").data then some ("devel")
      else none
    | _ => none

/-- The base string whose suffix is matched: `base`, or `build-base` when
`base` is the `bare` sentinel. -/
def effectiveBase (dir : String) (rc : Rockcraft) : Except String String :=
  if rc.base = "bare" then
    match rc.buildBase with
    | some bb => .ok bb
    | none => .error ("KeyError: " ++ sq "build-base" ++ " in " ++
        sq (dir ++ "/rockcraft.yaml"))
  else .ok rc.base

/-- Model of `CIConfig.image_name_and_tag`: read the directory's `rockcraft.yaml`,
pick `base` (or `build-base` when base is `bare`), extract the trailing
version token, and return `(name, version-token_edge)`.  A missing file or
an unmatched base string is fatal. -/
def image_name_and_tag (env : Env) (image_directory : String) :
    Except String (String × String) :=
  match env.meta image_directory with
  | none =>
    .error ("FileNotFoundError: " ++ image_directory ++ "/rockcraft.yaml")
  | some rc =>
    match effectiveBase image_directory rc with
    | .error e => .error e
    | .ok base =>
      match baseVersionMatch base with
      | none =>
        .error ("Base " ++ sq base ++ " in " ++
          sq (image_directory ++ "/rockcraft.yaml") ++
          " does not match the expected pattern.\n" ++
          "See https://documentation.ubuntu.com/rockcraft/stable/reference/rockcraft.yaml/#base for supported base values.")
      | some tok => .ok (rc.name, rc.version ++ "-" ++ tok ++ "_edge")

/-! ### Matrix building -/

/-- Model of `CIConfig.artifact_name`: the directory with `/` replaced by `-`. -/
def artifact_name (dir : String) : String :=
  String.mk (dir.data.map (fun c => if c = '/' then '-' else c))

/-- Lexicographic comparison of character lists by code point, the
ordering Python uses to compare strings. -/
def charListLe : List Char → List Char → Bool
  | [], _ => true
  | _ :: _, [] => false
  | a :: as, b :: bs =>
    if a.toNat < b.toNat then true
    else if b.toNat < a.toNat then false
    else charListLe as bs

/-- Python string comparison `a <= b` (code-point lexicographic). -/
def strLeb (a b : String) : Bool := charListLe a.data b.data

/-- Python `sorted` on a list of strings. -/
def sortStr (l : List String) : List String :=
  l.insertionSort (fun a b => strLeb a b = true)

/-- The dedup/grouping key `(image.directory, frozenset(image.pro_services))`;
the frozenset is kept as the raw list, compared by `listSetEq`. -/
def imgKey (img : ImageEntry) : String × List String :=
  (img.directory, img.pro_services)

/-- Equality of the frozensets underlying two lists: mutual membership. -/
def listSetEq (a b : List String) : Bool :=
  a.all (fun x => b.contains x) && b.all (fun x => a.contains x)

/-- Equality of two dedup keys: directory equality together with
frozenset equality of the pro-service lists. -/
def keyEqB (k₁ k₂ : String × List String) : Bool :=
  k₁.1 == k₂.1 && listSetEq k₁.2 k₂.2

/-- The artifact name of a build-matrix group:
`artifact_name(directory)` plus `-`-joined sorted pro services when the
list is non-empty. -/
def fullArtifactName (img : ImageEntry) : String :=
  let pro := sortStr img.pro_services
  artifact_name img.directory ++
    (if pro.isEmpty then "" else "-" ++ String.intercalate "-" pro)

/-- A row of the build matrix (`matrix["include"]` entry). -/
structure BuildRow where
  name : String
  tag : String
  directory : String
  proServicesJoined : String
  artifactName : String
  runTests : Bool
deriving DecidableEq, Repr

/-- The build-matrix row appended for one processed image. -/
def mkBuildRow (env : Env) (img : ImageEntry) (nt : String × String) :
    BuildRow :=
  ⟨nt.1, nt.2, img.directory,
    String.intercalate "," (sortStr img.pro_services),
    fullArtifactName img, env.spreadExists img.directory⟩

/-- The collision error raised by `build_matrix`. -/
def collisionMsg (currentDir storedDir aname : String) : String :=
  "Artifact generated from " ++ sq currentDir ++ " and " ++ sq storedDir ++
    " have conflicting artifact name " ++ sq aname ++ "."

/-- The loop body of `CIConfig.build_matrix`: `arts` is the
`added_artifacts` mapping (artifact name to directory) and `seen` the
`added_images` set of dedup keys. -/
def buildMatrixGo (env : Env) :
    List ImageEntry → List (String × String) → List (String × List String) →
    Except String (List BuildRow)
  | [], _, _ => .ok []
  | img :: rest, arts, seen =>
    if seen.any (fun k => keyEqB (imgKey img) k) then
      buildMatrixGo env rest arts seen
    else
      match image_name_and_tag env img.directory with
      | .error e => .error e
      | .ok nt =>
        let aname := fullArtifactName img
        match arts.lookup aname with
        | some d₀ => .error (collisionMsg img.directory d₀ aname)
        | none =>
          match buildMatrixGo env rest ((aname, img.directory) :: arts)
              (imgKey img :: seen) with
          | .error e => .error e
          | .ok rows => .ok (mkBuildRow env img nt :: rows)

/-- Model of `CIConfig.build_matrix`. -/
def build_matrix (env : Env) (c : CIConfig) : Except String (List BuildRow) :=
  buildMatrixGo env c.images [] []

/-- The sublist of images actually processed by the `build_matrix` loop:
for each dedup key (up to frozenset equality), the first entry carrying
it, in declaration order; `seen` holds the keys already processed. -/
def dedupByKey : List ImageEntry → List (String × List String) → List ImageEntry
  | [], _ => []
  | img :: rest, seen =>
    if seen.any (fun k => keyEqB (imgKey img) k) then dedupByKey rest seen
    else img :: dedupByKey rest (imgKey img :: seen)

/-- The `build_matrix` loop restricted to a list of images that are all
processed (no dedup skips): used to factor `buildMatrixGo` through
`dedupByKey`. -/
def processList (env : Env) :
    List ImageEntry → List (String × String) → Except String (List BuildRow)
  | [], _ => .ok []
  | img :: rest, arts =>
    match image_name_and_tag env img.directory with
    | .error e => .error e
    | .ok nt =>
      let aname := fullArtifactName img
      match arts.lookup aname with
      | some d₀ => .error (collisionMsg img.directory d₀ aname)
      | none =>
        match processList env rest ((aname, img.directory) :: arts) with
        | .error e => .error e
        | .ok rows => .ok (mkBuildRow env img nt :: rows)

/-! ### Upload matrix -/

/-- Add the elements of `new` that are not yet present to the back of
`cur` (the effect of `set.update` on an insertion-ordered model of a
Python set). -/
def unionRegs (cur new : List String) : List String :=
  new.foldl (fun acc r => if acc.contains r then acc else acc ++ [r]) cur

/-- Deduplicate a list keeping first occurrences: the set underlying a
Python list, in an insertion-ordered model. -/
def setList (l : List String) : List String := unionRegs [] l

/-- One `image_publish_cfg[key].update(image.registries)` step on the
insertion-ordered dict of groups: merge into the entry whose key equals
`key` (tuple equality with frozenset equality), else append a new entry. -/
def addGroup :
    List ((String × List String) × List String) → (String × List String) →
    List String → List ((String × List String) × List String)
  | [], key, regs => [(key, unionRegs [] regs)]
  | (k, rs) :: rest, key, regs =>
    if keyEqB k key then (k, unionRegs rs regs) :: rest
    else (k, rs) :: addGroup rest key regs

/-- The `image_publish_cfg` grouping loop of `CIConfig.upload_matrix`. -/
def uploadGroups (images : List ImageEntry) :
    List ((String × List String) × List String) :=
  images.foldl (fun gs img => addGroup gs (imgKey img) img.registries) []

/-- The artifact-name suffix used by `upload_matrix`: built from
`sorted(image_pro_srvs)` where `image_pro_srvs` is the frozenset, hence
deduplicated. -/
def uploadSuffix (proList : List String) : String :=
  let s := sortStr (setList proList)
  if s.isEmpty then "" else "-" ++ String.intercalate "-" s

/-- A row of the upload matrix.  The flattened
`registry-auth-*` fields of the row are modelled by the method tag and the
auth config they are produced from. -/
structure UploadRow where
  name : String
  tag : String
  artifactName : String
  proEnabled : Bool
  registryUri : String
  authMethod : AuthType
  authConfig : AuthConfig
deriving DecidableEq, Repr

/-- The rows emitted for one group: one per registry name, in the order
given (`sorted(registries)` at the call site); the registry config comes
from the `self.registries` dict (`KeyError` on a missing name). -/
def rowsForGroup (registries : List (String × RegistryConfigEntry))
    (name tag aname : String) (proEnabled : Bool) :
    List String → Except String (List UploadRow)
  | [] => .ok []
  | rn :: rs =>
    match registries.lookup rn with
    | none => .error ("KeyError: " ++ sq rn)
    | some rc =>
      match rowsForGroup registries name tag aname proEnabled rs with
      | .error e => .error e
      | .ok rows =>
        .ok (⟨name, tag, aname, proEnabled, rc.uri,
          rc.auth.method, rc.auth.config⟩ :: rows)

/-- The per-group loop of `CIConfig.upload_matrix`: groups with an empty
registries union are skipped; otherwise the name/tag is read and one row
per sorted registry name is emitted. -/
def uploadGo (env : Env) (registries : List (String × RegistryConfigEntry)) :
    List ((String × List String) × List String) →
    Except String (List UploadRow)
  | [] => .ok []
  | (k, regs) :: rest =>
    if regs.isEmpty then uploadGo env registries rest
    else
      match image_name_and_tag env k.1 with
      | .error e => .error e
      | .ok nt =>
        match rowsForGroup registries nt.1 nt.2
            (artifact_name k.1 ++ uploadSuffix k.2)
            (decide (0 < (setList k.2).length)) (sortStr regs) with
        | .error e => .error e
        | .ok rows =>
          match uploadGo env registries rest with
          | .error e => .error e
          | .ok rest' => .ok (rows ++ rest')

/-- Model of `CIConfig.upload_matrix`. -/
def upload_matrix (env : Env) (c : CIConfig) :
    Except String (List UploadRow) :=
  uploadGo env c.registries (uploadGroups c.images)

/-- The (group key, registry name) pairs in the order the upload-matrix
loop emits rows for them: per group in dict insertion order, per registry
in sorted order; groups with an empty union contribute nothing. -/
def uploadEmissions (images : List ImageEntry) :
    List ((String × List String) × String) :=
  (uploadGroups images).flatMap (fun g => (sortStr g.2).map (fun r => (g.1, r)))

/-! ### main: the GitHub outputs -/

/-- The two scalar boolean outputs written by `main` (lines 367 and 370 of
process_ci_config.py): both lines serialise `ci_config.ghcr.upload`. -/
def ghcrScalarOutputs (c : CIConfig) : List (String × Bool) :=
  [("ghcr-upload", c.ghcr.upload), ("ghcr-cve-scan", c.ghcr.upload)]

/-! ### Concrete instances used by the claim witnesses -/

/-- Concrete environment exercising tag derivation. -/
def c4Env : Env :=
  ⟨fun d => if d = "mock-rock/1.0" then
      some ⟨"mock-rock", "1.0", "bare", some ("ubuntu:24.04")⟩
    else if d = "invalid-rock/1.0" then
      some ⟨"invalid-rock", "1.0", "ubuntu:noble", none⟩
    else none,
   fun _ => false⟩

/-- Rockcraft metadata shared by several concrete environments. -/
def rcMock : Rockcraft := ⟨"mock-rock", "1.0", "bare", some ("ubuntu:24.04")⟩

/-- Environment for the artifact-collision example: `a/b` and `a-b` are
distinct directories whose artifact names coincide. -/
def c3Env : Env :=
  ⟨fun d => if d = "a/b" then some ⟨"rock-ab", "1.0", "ubuntu@22.04", none⟩
    else if d = "a-b" then some ⟨"rock-ab2", "2.0", "ubuntu@22.04", none⟩
    else none,
   fun _ => false⟩

/-- Configuration with two images whose artifact names collide. -/
def c3Cfg : CIConfig :=
  ⟨1, ⟨false, false⟩, [], [⟨"a/b", [], []⟩, ⟨"a-b", [], []⟩]⟩

/-- Environment with only `mock-rock/1.0` present. -/
def c5Env : Env :=
  ⟨fun d => if d = "mock-rock/1.0" then some rcMock else none, fun _ => false⟩

/-- Configuration declaring the same (directory, pro_services) pair twice. -/
def c5Cfg : CIConfig :=
  ⟨1, ⟨true, false⟩, [],
   [⟨"mock-rock/1.0", ["esm-apps"], []⟩, ⟨"mock-rock/1.0", ["esm-apps"], []⟩]⟩

/-- A validated basic-auth registry entry. -/
def c6RegA : RegistryConfigEntry :=
  ⟨"registry.a/u", ⟨.basic, .basic "AU" "AP"⟩⟩

/-- A validated bearer-auth registry entry. -/
def c6RegB : RegistryConfigEntry :=
  ⟨"registry.b/u", ⟨.bearer, .bearer "BT"⟩⟩

/-- Configuration exercising the upload matrix: repeated registry
declarations for one image and an image with no registries. -/
def c6Cfg : CIConfig :=
  ⟨1, ⟨true, false⟩, [("reg-b", c6RegB), ("reg-a", c6RegA)],
   [⟨"mock-rock/1.0", [], ["reg-b", "reg-a"]⟩,
    ⟨"mock-rock/1.0", [], ["reg-a"]⟩,
    ⟨"other/2.0", [], []⟩]⟩

/-- Validated configuration with a duplicated pro service. -/
def c10Cfg : CIConfig :=
  ⟨1, ⟨true, false⟩, [],
   [⟨"mock-rock/1.0", ["fips", "fips"], []⟩, ⟨"mock-rock/1.0", ["fips"], []⟩]⟩

/-- Raw configuration with a duplicated pro service. -/
def c10Raw : RawCIConfig :=
  ⟨1, true, false, [],
   [⟨"mock-rock/1.0", ["fips", "fips"], []⟩, ⟨"mock-rock/1.0", ["fips"], []⟩]⟩

/-! ### Helper lemmas -/

theorem esf_ok_of {v : String} (h1 : v ≠ "")
    (h2 : strStartsWith v secretMarker = true) :
    ensure_secret_format v = .ok (stripMarker v) := by
  simp [ensure_secret_format, h1, h2]

theorem esf_ok_iff {v w : String} :
    ensure_secret_format v = .ok w ↔
      v ≠ "" ∧ strStartsWith v secretMarker = true ∧ w = stripMarker v := by
  unfold ensure_secret_format
  by_cases h1 : v = ""
  · subst h1; simp
  · rw [if_neg h1]
    by_cases h2 : strStartsWith v secretMarker
    · rw [if_pos h2]; simp [h1, h2, eq_comm]
    · rw [if_neg h2]; simp [h1, h2]

/-- C7: For every credential-reference field of every auth variant (basic
username/password, bearer token, ecr and ecr-public username/password),
validation succeeds exactly when the value is a non-empty string starting
with `secrets.`, and the stored value is the input with that marker
stripped (`secrets.FOO` is stored as `FOO`); a value without the marker
fails validation. -/
theorem claim_C7_secret_format :
    (∀ v w, ensure_secret_format v = .ok w ↔
      v ≠ "" ∧ strStartsWith v ("secrets.") = true ∧ w = stripMarker v) ∧
    (∀ u p x, validateBasicAuth u p = .ok x ↔
      u ≠ "" ∧ strStartsWith u ("secrets.") = true ∧
      p ≠ "" ∧ strStartsWith p ("secrets.") = true ∧
      x = .basic (stripMarker u) (stripMarker p)) ∧
    (∀ t x, validateBearerAuth t = .ok x ↔
      t ≠ "" ∧ strStartsWith t ("secrets.") = true ∧
      x = .bearer (stripMarker t)) ∧
    (∀ r u p x, validateECRAuth r u p = .ok x ↔
      u ≠ "" ∧ strStartsWith u ("secrets.") = true ∧
      p ≠ "" ∧ strStartsWith p ("secrets.") = true ∧
      x = .ecr r (stripMarker u) (stripMarker p)) ∧
    (∀ r u p x, validateECRPublicAuth r u p = .ok x ↔
      u ≠ "" ∧ strStartsWith u ("secrets.") = true ∧
      p ≠ "" ∧ strStartsWith p ("secrets.") = true ∧
      x = .ecrPublic r (stripMarker u) (stripMarker p)) ∧
    ensure_secret_format ("secrets.FOO") = .ok ("FOO") := by
  have pair : ∀ (u p : String) (mk : String → String → AuthConfig) x,
      ((ensure_secret_format u).bind fun a =>
        (ensure_secret_format p).bind fun b =>
          Except.ok (mk a b)) = .ok x ↔
      (u ≠ "" ∧ strStartsWith u ("secrets.") = true ∧
       p ≠ "" ∧ strStartsWith p ("secrets.") = true ∧
       x = mk (stripMarker u) (stripMarker p)) := by
    intro u p mk x
    cases hu : ensure_secret_format u with
    | error e =>
      simp only [Except.bind]
      constructor
      · intro h; cases h
      · rintro ⟨h1, h2, -⟩
        rw [esf_ok_of h1 h2] at hu; cases hu
    | ok a =>
      rcases esf_ok_iff.mp hu with ⟨h1, h2, rfl⟩
      cases hp : ensure_secret_format p with
      | error e =>
        simp only [Except.bind]
        constructor
        · intro h; cases h
        · rintro ⟨-, -, h3, h4, -⟩
          rw [esf_ok_of h3 h4] at hp; cases hp
      | ok b =>
        rcases esf_ok_iff.mp hp with ⟨h3, h4, rfl⟩
        show Except.ok (mk (stripMarker u) (stripMarker p)) = .ok x ↔ _
        constructor
        · intro h; injection h with h; exact ⟨h1, h2, h3, h4, h.symm⟩
        · rintro ⟨-, -, -, -, rfl⟩; rfl
  refine ⟨?_, ?_, ?_, ?_, ?_, rfl⟩
  · intro v w; exact esf_ok_iff
  · intro u p x; exact pair u p AuthConfig.basic x
  · intro t x
    unfold validateBearerAuth
    cases ht : ensure_secret_format t with
    | error e =>
      simp only [bind, Except.bind]
      constructor
      · intro h; cases h
      · rintro ⟨h1, h2, -⟩
        rw [esf_ok_of h1 h2] at ht; cases ht
    | ok a =>
      rcases esf_ok_iff.mp ht with ⟨h1, h2, rfl⟩
      show Except.ok (AuthConfig.bearer (stripMarker t)) = .ok x ↔ _
      constructor
      · intro h; injection h with h; exact ⟨h1, h2, h.symm⟩
      · rintro ⟨-, -, rfl⟩; rfl
  · intro r u p x; exact pair u p (AuthConfig.ecr r) x
  · intro r u p x; exact pair u p (AuthConfig.ecrPublic r) x

/-- C9: For every RegistryEntry, the `auth` value must be supplied as a
container holding exactly one element: a non-container value, an empty
container, or a container with two or more entries each fails validation,
and the single element is what gets validated further. -/
theorem claim_C9_auth_singleton :
    (∀ (v : RawListValue RawSecretEntry) x,
      unpack_auth_list v = .ok x ↔ v = .list [x]) ∧
    unpack_auth_list (RawListValue.nonList : RawListValue RawSecretEntry) =
      .error ("Auth must be provided as a list.") ∧
    unpack_auth_list (.list ([] : List RawSecretEntry)) =
      .error ("Auth list must contain exactly one entry.") ∧
    (∀ (x y : RawSecretEntry) rest,
      unpack_auth_list (.list (x :: y :: rest)) =
        .error ("Auth list must contain exactly one entry.")) := by
  refine ⟨?_, rfl, rfl, fun x y rest => rfl⟩
  intro v x
  cases v with
  | nonList => simp [unpack_auth_list]
  | list xs =>
    match xs with
    | [] => simp [unpack_auth_list]
    | [a] => simp [unpack_auth_list]
    | a :: b :: rest => simp [unpack_auth_list]

/-- C2 (code bug): the process is supposed to emit `ghcr-upload` equal to
`ghcr.upload` and `ghcr-cve-scan` equal to `ghcr.cve_scan`, but line 370
of process_ci_config.py serialises `ci_config.ghcr.upload` for the
`ghcr-cve-scan` output as well.  On the valid configuration with
`upload: true, cve-scan: false` the emitted `ghcr-cve-scan` value is
`true` while the configuration flag is `false`. -/
theorem claim_C2_cve_scan_output :
    validateGHCR true false = .ok ⟨true, false⟩ ∧
    (ghcrScalarOutputs ⟨1, ⟨true, false⟩, [], []⟩).lookup ("ghcr-upload") =
      some true ∧
    (ghcrScalarOutputs ⟨1, ⟨true, false⟩, [], []⟩).lookup ("ghcr-cve-scan") =
      some true ∧
    (⟨1, ⟨true, false⟩, [], []⟩ : CIConfig).ghcr.cve_scan = false ∧
    (∀ c : CIConfig, (ghcrScalarOutputs c).lookup ("ghcr-cve-scan") =
      some c.ghcr.upload) := by
  refine ⟨rfl, by decide, by decide, rfl, fun c => ?_⟩
  simp [ghcrScalarOutputs, List.lookup]

/-- C1 (code bug): wildcard expansion replaces a `directory: "*"` entry by
one `ImageEntry` per discovered directory and those entries inherit the
original `registries`, but `_expand_image_directories` does not pass
`pro_services` to the `ImageEntry` constructor, so the expanded entries
always carry the empty pro-service list instead of inheriting the
original one. -/
theorem claim_C1_wildcard_drops_pro_services :
    expand_image_directories
        ["mock-rock/1.0/rockcraft.yaml", "another-rock/2.0/rockcraft.yaml"]
        [⟨"*", ["esm-apps"], ["docker.io"]⟩] =
      .ok [⟨"mock-rock/1.0", [], ["docker.io"]⟩,
           ⟨"another-rock/2.0", [], ["docker.io"]⟩] ∧
    (∀ glob pro regs,
      expand_image_directories glob [⟨"*", pro, regs⟩] =
        .ok (glob.map (fun d => ⟨dirname d, [], regs⟩))) := by
  constructor
  · rfl
  · intro glob pro regs
    show (if ("*").data.contains '*' = true then _ else _) = _
    rw [if_pos (by decide)]
    rw [if_neg (by simp)]
    rw [show expand_image_directories glob ([] : List ImageEntry) =
      .ok [] from rfl]
    simp

theorem exists_five {α : Type} {l : List α} (h : l.length = 5) :
    ∃ a b c d e, l = [a, b, c, d, e] := by
  rcases l with _ | ⟨a, l⟩
  · simp at h
  rcases l with _ | ⟨b, l⟩
  · simp at h
  rcases l with _ | ⟨c, l⟩
  · simp at h
  rcases l with _ | ⟨d, l⟩
  · simp at h
  rcases l with _ | ⟨e, l⟩
  · simp at h
  rcases l with _ | ⟨f, l⟩
  · exact ⟨a, b, c, d, e, rfl⟩
  · simp at h

theorem suffix5_iff {cs suf : List Char} (h : suf.length = 5) :
    (∃ pre, cs = pre ++ suf) ↔
      5 ≤ cs.length ∧ cs.drop (cs.length - 5) = suf := by
  constructor
  · rintro ⟨pre, rfl⟩
    have hl : (pre ++ suf).length = pre.length + 5 := by simp [h]
    refine ⟨by omega, ?_⟩
    have h2 : (pre ++ suf).length - 5 = pre.length := by omega
    rw [h2, List.drop_left]
  · rintro ⟨h5, hdrop⟩
    exact ⟨cs.take (cs.length - 5), by rw [← hdrop, List.take_append_drop]⟩

theorem baseVersionMatch_some_iff (b : String) :
    (baseVersionMatch b).isSome = true ↔
      (∃ pre, b.data = pre ++ ("devel").data) ∨
      (∃ pre c₁ c₂ s c₃ c₄, b.data = pre ++ [c₁, c₂, s, c₃, c₄] ∧
        c₁.isDigit = true ∧ c₂.isDigit = true ∧ (s = '.' ∨ s = '@') ∧
        c₃.isDigit = true ∧ c₄.isDigit = true) := by
  unfold baseVersionMatch
  by_cases hn : b.data.length < 5
  · rw [if_pos hn]
    simp only [Option.isSome_none, Bool.false_eq_true, false_iff]
    rintro (⟨pre, hpre⟩ | ⟨pre, c₁, c₂, s, c₃, c₄, hpre, -⟩) <;>
      rw [hpre] at hn <;> simp at hn
  · rw [if_neg hn]
    have hlen : (b.data.drop (b.data.length - 5)).length = 5 := by
      rw [List.length_drop]; omega
    obtain ⟨a, b2, s, c, d, h5⟩ := exists_five hlen
    rw [h5]
    dsimp only
    have hdev : ("devel").data.length = 5 := by decide
    by_cases hdig : a.isDigit ∧ b2.isDigit ∧ (s = '.' ∨ s = '@') ∧
        c.isDigit ∧ d.isDigit
    · rw [if_pos hdig]
      simp only [Option.isSome_some, true_iff]
      right
      refine ⟨b.data.take (b.data.length - 5), a, b2, s, c, d, ?_,
        hdig.1, hdig.2.1, hdig.2.2.1, hdig.2.2.2.1, hdig.2.2.2.2⟩
      rw [← h5, List.take_append_drop]
    · rw [if_neg hdig]
      by_cases hdv : [a, b2, s, c, d] = ("devel").data
      · rw [if_pos hdv]
        simp only [Option.isSome_some, true_iff]
        left
        have hdv2 : [a, b2, s, c, d] = ['d', 'e', 'v', 'e', 'l'] := hdv
        exact ⟨b.data.take (b.data.length - 5), by rw [← hdv2, ← h5,
          List.take_append_drop]⟩
      · rw [if_neg hdv]
        simp only [Option.isSome_none, Bool.false_eq_true, false_iff]
        rintro (⟨pre, hpre⟩ | ⟨pre, c₁, c₂, s', c₃, c₄, hpre, d₁, d₂, ds, d₃, d₄⟩)
        · have := (suffix5_iff hdev).mp ⟨pre, hpre⟩
          rw [h5] at this
          exact hdv this.2
        · have := (@suffix5_iff b.data [c₁, c₂, s', c₃, c₄] rfl).mp ⟨pre, hpre⟩
          rw [h5] at this
          have he := this.2
          injection he with e1 he; injection he with e2 he
          injection he with e3 he; injection he with e4 he
          injection he with e5 he
          subst e1; subst e2; subst e3; subst e4; subst e5
          exact hdig ⟨d₁, d₂, ds, d₃, d₄⟩

/-- C4: For metadata name mock-rock, version 1.0, base bare, build-base
ubuntu:24.04, `image_name_and_tag` returns `(mock-rock, 1.0-24.04_edge)`;
the regex match succeeds exactly when the effective base string ends in
two digits, a `.` or `@` separator and two digits, or in the literal
`devel`; when it fails, the error names the offending base string; and
every successful tag has the shape version-token_edge. -/
theorem claim_C4_tag_derivation :
    (∀ (env : Env) dir, env.meta dir =
        some ⟨"mock-rock", "1.0", "bare", some ("ubuntu:24.04")⟩ →
      image_name_and_tag env dir = .ok ("mock-rock", "1.0-24.04_edge")) ∧
    (∀ b : String, (baseVersionMatch b).isSome = true ↔
      (∃ pre, b.data = pre ++ ("devel").data) ∨
      (∃ pre c₁ c₂ s c₃ c₄, b.data = pre ++ [c₁, c₂, s, c₃, c₄] ∧
        c₁.isDigit = true ∧ c₂.isDigit = true ∧ (s = '.' ∨ s = '@') ∧
        c₃.isDigit = true ∧ c₄.isDigit = true)) ∧
    (∀ (env : Env) dir rc b, env.meta dir = some rc →
      effectiveBase dir rc = .ok b → baseVersionMatch b = none →
      image_name_and_tag env dir = .error ("Base " ++ sq b ++ " in " ++
        sq (dir ++ "/rockcraft.yaml") ++
        " does not match the expected pattern.\n" ++
        "See https://documentation.ubuntu.com/rockcraft/stable/reference/rockcraft.yaml/#base for supported base values.")) ∧
    (∀ (env : Env) dir n t, image_name_and_tag env dir = .ok (n, t) →
      ∃ rc b tok, env.meta dir = some rc ∧ effectiveBase dir rc = .ok b ∧
        baseVersionMatch b = some tok ∧ n = rc.name ∧
        t = rc.version ++ "-" ++ tok ++ "_edge") := by
  refine ⟨?_, baseVersionMatch_some_iff, ?_, ?_⟩
  · intro env dir h
    unfold image_name_and_tag
    rw [h]
    rfl
  · intro env dir rc b h1 h2 h3
    unfold image_name_and_tag
    rw [h1]
    dsimp only
    rw [h2]
    dsimp only
    rw [h3]
  · intro env dir n t h
    unfold image_name_and_tag at h
    split at h
    · cases h
    · rename_i rc hmeta
      split at h
      · cases h
      · rename_i base hbase
        split at h
        · cases h
        · rename_i tok htok
          injection h with h
          injection h with hn ht
          exact ⟨rc, base, tok, hmeta, hbase, htok, hn.symm, ht.symm⟩

theorem claim_C4_tag_derivation_witness :
    image_name_and_tag c4Env "mock-rock/1.0" =
      .ok ("mock-rock", "1.0-24.04_edge") ∧
    image_name_and_tag c4Env "invalid-rock/1.0" =
      .error ("Base " ++ sq "ubuntu:noble" ++ " in " ++
        sq ("invalid-rock/1.0" ++ "/rockcraft.yaml") ++
        " does not match the expected pattern.\n" ++
        "See https://documentation.ubuntu.com/rockcraft/stable/reference/rockcraft.yaml/#base for supported base values.") :=
  ⟨claim_C4_tag_derivation.1 c4Env "mock-rock/1.0" rfl,
   claim_C4_tag_derivation.2.2.1 c4Env "invalid-rock/1.0"
     ⟨"invalid-rock", "1.0", "ubuntu:noble", none⟩ "ubuntu:noble"
     rfl rfl rfl⟩

/-! ### Key equality is an equivalence -/

theorem keyEqB_iff (k₁ k₂ : String × List String) :
    keyEqB k₁ k₂ = true ↔ (k₁.1 = k₂.1 ∧ ∀ x, x ∈ k₁.2 ↔ x ∈ k₂.2) := by
  simp only [keyEqB, listSetEq, Bool.and_eq_true, beq_iff_eq, List.all_eq_true]
  constructor
  · rintro ⟨h1, h2, h3⟩
    refine ⟨h1, fun x => ⟨fun hx => ?_, fun hx => ?_⟩⟩
    · simpa using h2 x hx
    · simpa using h3 x hx
  · rintro ⟨h1, h2⟩
    refine ⟨h1, fun x hx => ?_, fun x hx => ?_⟩
    · simpa using (h2 x).mp hx
    · simpa using (h2 x).mpr hx

theorem keyEqB_refl (k : String × List String) : keyEqB k k = true :=
  (keyEqB_iff k k).mpr ⟨rfl, fun _ => Iff.rfl⟩

theorem keyEqB_comm (k₁ k₂ : String × List String) :
    keyEqB k₁ k₂ = keyEqB k₂ k₁ := by
  rw [Bool.eq_iff_iff, keyEqB_iff, keyEqB_iff]
  exact ⟨fun h => ⟨h.1.symm, fun x => (h.2 x).symm⟩,
    fun h => ⟨h.1.symm, fun x => (h.2 x).symm⟩⟩

theorem keyEqB_trans {k₁ k₂ k₃ : String × List String}
    (h1 : keyEqB k₁ k₂ = true) (h2 : keyEqB k₂ k₃ = true) :
    keyEqB k₁ k₃ = true := by
  rw [keyEqB_iff] at h1 h2 ⊢
  exact ⟨h1.1.trans h2.1, fun x => (h1.2 x).trans (h2.2 x)⟩

theorem any_keyEq_congr {seen : List (String × List String)}
    {k₁ k₂ : String × List String} (h : keyEqB k₁ k₂ = true) :
    seen.any (fun k => keyEqB k₁ k) = seen.any (fun k => keyEqB k₂ k) := by
  induction seen with
  | nil => rfl
  | cons s rest ih =>
    simp only [List.any_cons, ih]
    congr 1
    rw [Bool.eq_iff_iff]
    constructor
    · intro h1
      exact keyEqB_trans (by rw [keyEqB_comm]; exact h) h1
    · intro h2
      exact keyEqB_trans h h2

/-! ### Factoring the build-matrix loop through dedupByKey -/

theorem buildMatrixGo_eq (env : Env) :
    ∀ (l : List ImageEntry) (arts : List (String × String))
      (seen : List (String × List String)),
      buildMatrixGo env l arts seen =
        processList env (dedupByKey l seen) arts := by
  intro l
  induction l with
  | nil => intro arts seen; rfl
  | cons img rest ih =>
    intro arts seen
    simp only [buildMatrixGo, dedupByKey]
    by_cases h : seen.any (fun k => keyEqB (imgKey img) k) = true
    · rw [if_pos h, if_pos h]
      exact ih arts seen
    · rw [if_neg h, if_neg h]
      simp only [processList]
      cases hnt : image_name_and_tag env img.directory with
      | error e => rfl
      | ok nt =>
        dsimp only
        cases hl : arts.lookup (fullArtifactName img) with
        | some d => rfl
        | none =>
          dsimp only
          rw [ih]

/-! ### Properties of the processed list on success -/

theorem processList_ok_shape (env : Env) :
    ∀ (l : List ImageEntry) (arts : List (String × String))
      (m : List BuildRow), processList env l arts = .ok m →
      List.Forall₂ (fun img r => r.directory = img.directory ∧
        r.proServicesJoined =
          String.intercalate "," (sortStr img.pro_services) ∧
        r.artifactName = fullArtifactName img) l m := by
  intro l
  induction l with
  | nil =>
    intro arts m h
    injection h with h
    rw [← h]
    exact List.Forall₂.nil
  | cons img rest ih =>
    intro arts m h
    rw [processList] at h
    cases hnt : image_name_and_tag env img.directory with
    | error e => rw [hnt] at h; cases h
    | ok nt =>
      rw [hnt] at h
      dsimp only at h
      cases hl : arts.lookup (fullArtifactName img) with
      | some d => rw [hl] at h; cases h
      | none =>
        rw [hl] at h
        cases hrec : processList env rest
            ((fullArtifactName img, img.directory) :: arts) with
        | error e => rw [hrec] at h; cases h
        | ok rows =>
          rw [hrec] at h
          injection h with h
          rw [← h]
          exact List.Forall₂.cons ⟨rfl, rfl, rfl⟩ (ih _ rows hrec)

theorem processList_ok_names (env : Env) :
    ∀ (l : List ImageEntry) (arts : List (String × String))
      (m : List BuildRow), processList env l arts = .ok m →
      (l.map fullArtifactName).Pairwise (· ≠ ·) ∧
      (∀ n ∈ l.map fullArtifactName, arts.lookup n = none) := by
  intro l
  induction l with
  | nil => intro arts m h; simp
  | cons img rest ih =>
    intro arts m h
    rw [processList] at h
    cases hnt : image_name_and_tag env img.directory with
    | error e => rw [hnt] at h; cases h
    | ok nt =>
      rw [hnt] at h
      dsimp only at h
      cases hl : arts.lookup (fullArtifactName img) with
      | some d => rw [hl] at h; cases h
      | none =>
        rw [hl] at h
        cases hrec : processList env rest
            ((fullArtifactName img, img.directory) :: arts) with
        | error e => rw [hrec] at h; cases h
        | ok rows =>
          obtain ⟨hpw, hlook⟩ := ih _ rows hrec
          constructor
          · rw [List.map_cons, List.pairwise_cons]
            refine ⟨?_, hpw⟩
            intro n hn hne
            have := hlook n hn
            rw [← hne] at this
            rw [List.lookup_cons] at this
            simp at this
          · intro n hn
            rw [List.map_cons, List.mem_cons] at hn
            rcases hn with rfl | hn
            · exact hl
            · have := hlook n hn
              rw [List.lookup_cons] at this
              by_cases hbe : (n == fullArtifactName img) = true
              · rw [hbe] at this; cases this
              · rw [Bool.not_eq_true] at hbe
                rw [hbe] at this
                exact this

/-! ### Properties of dedupByKey -/

theorem dedup_mem_not_seen :
    ∀ (l : List ImageEntry) (seen : List (String × List String))
      (i : ImageEntry), i ∈ dedupByKey l seen →
      seen.any (fun k => keyEqB (imgKey i) k) = false := by
  intro l
  induction l with
  | nil => intro seen i h; cases h
  | cons img rest ih =>
    intro seen i h
    rw [dedupByKey] at h
    by_cases hc : seen.any (fun k => keyEqB (imgKey img) k) = true
    · rw [if_pos hc] at h
      exact ih seen i h
    · rw [if_neg hc] at h
      rcases List.mem_cons.mp h with rfl | h
      · exact Bool.not_eq_true _ |>.mp hc
      · have := ih (imgKey img :: seen) i h
        rw [List.any_cons] at this
        exact (Bool.or_eq_false_iff.mp this).2

theorem dedup_pairwise :
    ∀ (l : List ImageEntry) (seen : List (String × List String)),
      (dedupByKey l seen).Pairwise
        (fun i j => keyEqB (imgKey i) (imgKey j) = false) := by
  intro l
  induction l with
  | nil => intro seen; exact List.Pairwise.nil
  | cons img rest ih =>
    intro seen
    rw [dedupByKey]
    by_cases hc : seen.any (fun k => keyEqB (imgKey img) k) = true
    · rw [if_pos hc]
      exact ih seen
    · rw [if_neg hc]
      refine List.pairwise_cons.mpr ⟨?_, ih (imgKey img :: seen)⟩
      intro j hj
      have := dedup_mem_not_seen rest (imgKey img :: seen) j hj
      rw [List.any_cons] at this
      have h1 := (Bool.or_eq_false_iff.mp this).1
      rw [keyEqB_comm]
      exact h1

theorem dedup_countP :
    ∀ (l : List ImageEntry) (seen : List (String × List String))
      (key : String × List String),
      (dedupByKey l seen).countP (fun i => keyEqB (imgKey i) key) =
        (if seen.any (fun k => keyEqB key k) = true then 0
         else if l.any (fun i => keyEqB (imgKey i) key) = true then 1
         else 0) := by
  intro l
  induction l with
  | nil =>
    intro seen key
    simp [dedupByKey]
  | cons img rest ih =>
    intro seen key
    rw [dedupByKey]
    by_cases hc : seen.any (fun k => keyEqB (imgKey img) k) = true
    · rw [if_pos hc, ih]
      by_cases hs : seen.any (fun k => keyEqB key k) = true
      · rw [if_pos hs, if_pos hs]
      · rw [if_neg hs, if_neg hs]
        have himg : keyEqB (imgKey img) key = false := by
          by_contra hne
          rw [Bool.not_eq_false] at hne
          rw [any_keyEq_congr hne] at hc
          exact hs hc
        rw [List.any_cons, himg, Bool.false_or]
    · rw [if_neg hc, List.countP_cons, ih]
      by_cases hk : keyEqB (imgKey img) key = true
      · have hk2 : keyEqB key (imgKey img) = true := by
          rw [keyEqB_comm]; exact hk
        have hs : seen.any (fun k => keyEqB key k) = false := by
          rw [any_keyEq_congr hk2]
          exact Bool.not_eq_true _ |>.mp hc
        rw [List.any_cons, List.any_cons, hs, hk, hk2]
        simp
      · have hkf : keyEqB (imgKey img) key = false :=
          Bool.not_eq_true _ |>.mp hk
        have hk2 : keyEqB key (imgKey img) = false := by
          rw [keyEqB_comm]; exact hkf
        rw [List.any_cons, List.any_cons, hkf, hk2]
        simp only [Bool.false_or]
        simp

theorem dedup_firstOcc :
    ∀ (l : List ImageEntry) (seen : List (String × List String))
      (i : ImageEntry), i ∈ dedupByKey l seen →
      l.find? (fun j => keyEqB (imgKey j) (imgKey i)) = some i := by
  intro l
  induction l with
  | nil => intro seen i h; cases h
  | cons img rest ih =>
    intro seen i h
    rw [dedupByKey] at h
    by_cases hc : seen.any (fun k => keyEqB (imgKey img) k) = true
    · rw [if_pos hc] at h
      have hs := dedup_mem_not_seen rest seen i h
      have hhead : keyEqB (imgKey img) (imgKey i) = false := by
        by_contra hne
        rw [Bool.not_eq_false] at hne
        have hcom : keyEqB (imgKey i) (imgKey img) = true := by
          rw [keyEqB_comm]; exact hne
        have hany : seen.any (fun k => keyEqB (imgKey i) k) = true := by
          rw [any_keyEq_congr hcom]
          exact hc
        rw [hs] at hany; cases hany
      rw [List.find?_cons_of_neg rest (by simp [hhead])]
      exact ih seen i h
    · rw [if_neg hc] at h
      rcases List.mem_cons.mp h with rfl | h
      · rw [List.find?_cons_of_pos rest (keyEqB_refl _)]
      · have hs := dedup_mem_not_seen rest (imgKey img :: seen) i h
        rw [List.any_cons] at hs
        have h1 := (Bool.or_eq_false_iff.mp hs).1
        have hhead : keyEqB (imgKey img) (imgKey i) = false := by
          rw [keyEqB_comm]; exact h1
        rw [List.find?_cons_of_neg rest (by simp [hhead])]
        exact ih _ i h

/-! ### The shape of build_matrix errors under successful metadata -/

theorem processList_error_form (env : Env) :
    ∀ (l : List ImageEntry) (arts : List (String × String)) (e : String),
      (∀ img ∈ l, ∃ nt, image_name_and_tag env img.directory = .ok nt) →
      processList env l arts = .error e →
      ∃ img₂ ∈ l, ∃ d₀,
        e = collisionMsg img₂.directory d₀ (fullArtifactName img₂) ∧
        (arts.lookup (fullArtifactName img₂) = some d₀ ∨
          ∃ img₁ l₁ l₂, l = l₁ ++ img₁ :: l₂ ∧ img₂ ∈ l₂ ∧
            img₁.directory = d₀ ∧
            fullArtifactName img₁ = fullArtifactName img₂) := by
  intro l
  induction l with
  | nil => intro arts e _ h; cases h
  | cons img rest ih =>
    intro arts e hmeta h
    obtain ⟨nt, hnt⟩ := hmeta img (List.mem_cons_self img rest)
    rw [processList, hnt] at h
    dsimp only at h
    cases hl : arts.lookup (fullArtifactName img) with
    | some d₀ =>
      rw [hl] at h
      injection h with h
      exact ⟨img, List.mem_cons_self img rest, d₀, h.symm, Or.inl hl⟩
    | none =>
      rw [hl] at h
      cases hrec : processList env rest
          ((fullArtifactName img, img.directory) :: arts) with
      | ok rows => rw [hrec] at h; cases h
      | error e' =>
        rw [hrec] at h
        injection h with h
        subst h
        obtain ⟨img₂, hmem, d₀, hmsg, hdisj⟩ :=
          ih _ e' (fun i hi => hmeta i (List.mem_cons_of_mem img hi)) hrec
        refine ⟨img₂, List.mem_cons_of_mem img hmem, d₀, hmsg, ?_⟩
        rcases hdisj with hlook | ⟨img₁, l₁, l₂, hsplit, hin, hdir, hname⟩
        · rw [List.lookup_cons] at hlook
          by_cases hbe : (fullArtifactName img₂ == fullArtifactName img) = true
          · rw [hbe] at hlook
            injection hlook with hlook
            right
            exact ⟨img, [], rest, rfl, hmem, hlook, (beq_iff_eq.mp hbe).symm⟩
          · rw [Bool.not_eq_true] at hbe
            rw [hbe] at hlook
            exact Or.inl hlook
        · right
          exact ⟨img₁, img :: l₁, l₂, by rw [hsplit]; rfl, hin, hdir, hname⟩

theorem forall₂_map_artifact {l : List ImageEntry} {m : List BuildRow}
    (h : List.Forall₂ (fun img r => r.directory = img.directory ∧
      r.proServicesJoined = String.intercalate "," (sortStr img.pro_services) ∧
      r.artifactName = fullArtifactName img) l m) :
    m.map (fun r => r.artifactName) = l.map fullArtifactName := by
  induction h with
  | nil => rfl
  | cons h1 h2 ih => simp [h1.2.2, ih]

/-- C3: build_matrix fails, naming both conflicting directories and the
shared artifact name, whenever two distinct (directory, pro_services)
groups compute the same artifact name (given that the per-directory
metadata reads themselves succeed, since those are attempted first);
consequently, in every build matrix returned successfully, the artifact
names are pairwise distinct. -/
theorem claim_C3_artifact_collision :
    (∀ (env : Env) (c : CIConfig) (m : List BuildRow),
      build_matrix env c = .ok m →
      (m.map (fun r => r.artifactName)).Pairwise (· ≠ ·)) ∧
    (∀ (env : Env) (c : CIConfig),
      (∀ img ∈ dedupByKey c.images [],
        ∃ nt, image_name_and_tag env img.directory = .ok nt) →
      ¬ ((dedupByKey c.images []).map fullArtifactName).Pairwise (· ≠ ·) →
      ∃ d₁ d₂ a, build_matrix env c = .error (collisionMsg d₁ d₂ a) ∧
        ∃ i₁ ∈ dedupByKey c.images [], ∃ i₂ ∈ dedupByKey c.images [],
          keyEqB (imgKey i₁) (imgKey i₂) = false ∧ i₁.directory = d₂ ∧
          i₂.directory = d₁ ∧ fullArtifactName i₁ = a ∧
          fullArtifactName i₂ = a) := by
  constructor
  · intro env c m h
    rw [build_matrix, buildMatrixGo_eq] at h
    rw [forall₂_map_artifact (processList_ok_shape env _ _ _ h)]
    exact (processList_ok_names env _ _ _ h).1
  · intro env c hmeta hcol
    cases hres : build_matrix env c with
    | ok m =>
      exfalso
      apply hcol
      rw [build_matrix, buildMatrixGo_eq] at hres
      exact (processList_ok_names env _ _ _ hres).1
    | error e =>
      have hres2 : processList env (dedupByKey c.images []) [] = .error e := by
        rw [build_matrix, buildMatrixGo_eq] at hres; exact hres
      obtain ⟨i₂, hmem₂, d₀, hmsg, hdisj⟩ :=
        processList_error_form env _ _ _ hmeta hres2
      rcases hdisj with hlook | ⟨i₁, l₁, l₂, hsplit, hin, hdir, hname⟩
      · simp [List.lookup] at hlook
      · refine ⟨i₂.directory, d₀, fullArtifactName i₂,
          by rw [hmsg], ?_⟩
        refine ⟨i₁, ?_, i₂, hmem₂, ?_, hdir, rfl, hname, rfl⟩
        · rw [hsplit]
          exact List.mem_append_right l₁ (List.mem_cons_self _ _)
        · have hpw := dedup_pairwise c.images []
          rw [hsplit] at hpw
          have hsub : (i₁ :: l₂).Sublist (l₁ ++ i₁ :: l₂) :=
            List.sublist_append_right l₁ _
          exact (List.pairwise_cons.mp (hpw.sublist hsub)).1 i₂ hin

theorem claim_C3_artifact_collision_witness :
    ∃ d₁ d₂ a, build_matrix c3Env c3Cfg = .error (collisionMsg d₁ d₂ a) ∧
      ∃ i₁ ∈ dedupByKey c3Cfg.images [], ∃ i₂ ∈ dedupByKey c3Cfg.images [],
        keyEqB (imgKey i₁) (imgKey i₂) = false ∧ i₁.directory = d₂ ∧
        i₂.directory = d₁ ∧ fullArtifactName i₁ = a ∧
        fullArtifactName i₂ = a :=
  claim_C3_artifact_collision.2 c3Env c3Cfg
    (by
      intro img h
      rw [show dedupByKey c3Cfg.images [] =
        [⟨"a/b", [], []⟩, ⟨"a-b", [], []⟩] from rfl] at h
      rcases List.mem_cons.mp h with rfl | h
      · exact ⟨("rock-ab", "1.0-22.04_edge"), rfl⟩
      rcases List.mem_cons.mp h with rfl | h
      · exact ⟨("rock-ab2", "2.0-22.04_edge"), rfl⟩
      · cases h)
    (by
      intro hpw
      rw [show (dedupByKey c3Cfg.images []).map fullArtifactName =
        ["a-b", "a-b"] from rfl] at hpw
      exact (List.pairwise_cons.mp hpw).1 "a-b" (List.mem_cons_self _ _) rfl)

/-- C5: for every configuration and every dedup key, the build matrix
contains exactly one row per declared (directory, frozenset pro_services)
pair no matter how many entries declare it; the rows correspond in order
to the first occurrences of the keys, and each surviving entry is the
first entry of the image list carrying its key. -/
theorem claim_C5_idempotent_dedup :
    ∀ (env : Env) (c : CIConfig) (m : List BuildRow),
      build_matrix env c = .ok m →
      List.Forall₂ (fun img r => r.directory = img.directory ∧
        r.proServicesJoined =
          String.intercalate "," (sortStr img.pro_services) ∧
        r.artifactName = fullArtifactName img) (dedupByKey c.images []) m ∧
      (∀ key : String × List String,
        (dedupByKey c.images []).countP (fun i => keyEqB (imgKey i) key) =
          (if c.images.any (fun i => keyEqB (imgKey i) key) = true then 1
           else 0)) ∧
      (∀ i ∈ dedupByKey c.images [],
        c.images.find? (fun j => keyEqB (imgKey j) (imgKey i)) = some i) := by
  intro env c m h
  rw [build_matrix, buildMatrixGo_eq] at h
  refine ⟨processList_ok_shape env _ _ _ h, ?_,
    fun i hi => dedup_firstOcc c.images [] i hi⟩
  intro key
  rw [dedup_countP]
  simp

theorem claim_C5_idempotent_dedup_witness :
    build_matrix c5Env c5Cfg = .ok
      [⟨"mock-rock", "1.0-24.04_edge", "mock-rock/1.0", "esm-apps",
        "mock-rock-1.0-esm-apps", false⟩] ∧
    (dedupByKey c5Cfg.images []).countP
      (fun i => keyEqB (imgKey i) ("mock-rock/1.0", ["esm-apps"])) = 1 :=
  ⟨rfl, by
    rw [(claim_C5_idempotent_dedup c5Env c5Cfg _ rfl).2.1
      ("mock-rock/1.0", ["esm-apps"])]
    rfl⟩

/-- C10: a pro_services list containing the same valid service twice
passes validation undeduplicated; the build matrix row then shows the
duplicate both in the artifact-name suffix and in the comma-joined
pro-services field, while the dedup key treats the entry as identical to
one listing the service once (so only one row is produced). -/
theorem claim_C10_duplicate_pro_services :
    validateCIConfig [] c10Raw = .ok c10Cfg ∧
    build_matrix c5Env c10Cfg = .ok
      [⟨"mock-rock", "1.0-24.04_edge", "mock-rock/1.0", "fips,fips",
        "mock-rock-1.0-fips-fips", false⟩] ∧
    keyEqB ("mock-rock/1.0", ["fips", "fips"]) ("mock-rock/1.0", ["fips"]) =
      true :=
  ⟨rfl, rfl, by decide⟩

/-! ### Set-union and ordering lemmas for the upload matrix -/

theorem unionRegs_mem (cur new : List String) (r : String) :
    r ∈ unionRegs cur new ↔ r ∈ cur ∨ r ∈ new := by
  induction new generalizing cur with
  | nil => simp [unionRegs]
  | cons x xs ih =>
    show r ∈ unionRegs (if cur.contains x = true then cur else cur ++ [x]) xs ↔ _
    rw [ih]
    by_cases hx : cur.contains x = true
    · rw [if_pos hx]
      have hmem : x ∈ cur := by simpa using hx
      simp only [List.mem_cons]
      constructor
      · rintro (h | h)
        · exact Or.inl h
        · exact Or.inr (Or.inr h)
      · rintro (h | rfl | h)
        · exact Or.inl h
        · exact Or.inl hmem
        · exact Or.inr h
    · rw [if_neg hx]
      simp only [List.mem_append, List.mem_singleton, List.mem_cons]
      tauto

theorem unionRegs_nodup {cur : List String} (h : cur.Nodup)
    (new : List String) : (unionRegs cur new).Nodup := by
  induction new generalizing cur with
  | nil => exact h
  | cons x xs ih =>
    show (unionRegs (if cur.contains x = true then cur else cur ++ [x]) xs).Nodup
    by_cases hx : cur.contains x = true
    · rw [if_pos hx]; exact ih h
    · rw [if_neg hx]
      apply ih
      have hnot : x ∉ cur := by simpa using hx
      simp [List.nodup_append, h, hnot]

theorem addGroup_mem_iff
    (gs : List ((String × List String) × List String))
    (k : String × List String) (regs : List String)
    (key : String × List String) (r : String) :
    (∃ g ∈ addGroup gs k regs, keyEqB g.1 key = true ∧ r ∈ g.2) ↔
      ((∃ g ∈ gs, keyEqB g.1 key = true ∧ r ∈ g.2) ∨
        (keyEqB k key = true ∧ r ∈ regs)) := by
  induction gs with
  | nil =>
    rw [show addGroup [] k regs = [(k, unionRegs [] regs)] from rfl]
    constructor
    · rintro ⟨g, hg, hk, hr⟩
      rcases List.mem_singleton.mp hg with rfl
      rw [unionRegs_mem] at hr
      rcases hr with h | h
      · cases h
      · exact Or.inr ⟨hk, h⟩
    · rintro (⟨g, hg, -⟩ | ⟨hk, hr⟩)
      · cases hg
      · exact ⟨(k, unionRegs [] regs), List.mem_singleton.mpr rfl, hk,
          (unionRegs_mem [] regs r).mpr (Or.inr hr)⟩
  | cons g₀ rest ih =>
    rcases g₀ with ⟨k₀, rs₀⟩
    rw [addGroup]
    by_cases hk₀ : keyEqB k₀ k = true
    · rw [if_pos hk₀]
      have hiff : keyEqB k key = keyEqB k₀ key := by
        rw [Bool.eq_iff_iff]
        constructor
        · intro h; exact keyEqB_trans hk₀ h
        · intro h; exact keyEqB_trans (by rw [keyEqB_comm]; exact hk₀) h
      simp only [List.mem_cons]
      constructor
      · rintro ⟨g, rfl | hg, hkey, hr⟩
        · rw [unionRegs_mem] at hr
          rcases hr with h | h
          · exact Or.inl ⟨(k₀, rs₀), Or.inl rfl, hkey, h⟩
          · exact Or.inr ⟨by rw [hiff]; exact hkey, h⟩
        · exact Or.inl ⟨g, Or.inr hg, hkey, hr⟩
      · rintro (⟨g, rfl | hg, hkey, hr⟩ | ⟨hkey, hr⟩)
        · exact ⟨(k₀, unionRegs rs₀ regs), Or.inl rfl, hkey,
            (unionRegs_mem rs₀ regs r).mpr (Or.inl hr)⟩
        · exact ⟨g, Or.inr hg, hkey, hr⟩
        · exact ⟨(k₀, unionRegs rs₀ regs), Or.inl rfl, by rw [← hiff]; exact hkey,
            (unionRegs_mem rs₀ regs r).mpr (Or.inr hr)⟩
    · rw [if_neg hk₀]
      simp only [List.mem_cons]
      constructor
      · rintro ⟨g, rfl | hg, hkey, hr⟩
        · exact Or.inl ⟨(k₀, rs₀), Or.inl rfl, hkey, hr⟩
        · rcases (ih).mp ⟨g, hg, hkey, hr⟩ with ⟨g', hg', hkey', hr'⟩ | h
          · exact Or.inl ⟨g', Or.inr hg', hkey', hr'⟩
          · exact Or.inr h
      · rintro (⟨g, rfl | hg, hkey, hr⟩ | ⟨hkey, hr⟩)
        · exact ⟨(k₀, rs₀), Or.inl rfl, hkey, hr⟩
        · rcases (ih).mpr (Or.inl ⟨g, hg, hkey, hr⟩) with ⟨g', hg', hkey', hr'⟩
          exact ⟨g', Or.inr hg', hkey', hr'⟩
        · rcases (ih).mpr (Or.inr ⟨hkey, hr⟩) with ⟨g', hg', hkey', hr'⟩
          exact ⟨g', Or.inr hg', hkey', hr'⟩

theorem uploadGroups_aux (images : List ImageEntry) :
    ∀ (gs : List ((String × List String) × List String))
      (key : String × List String) (r : String),
      (∃ g ∈ images.foldl
          (fun gs img => addGroup gs (imgKey img) img.registries) gs,
        keyEqB g.1 key = true ∧ r ∈ g.2) ↔
      ((∃ g ∈ gs, keyEqB g.1 key = true ∧ r ∈ g.2) ∨
        (∃ img ∈ images, keyEqB (imgKey img) key = true ∧
          r ∈ img.registries)) := by
  induction images with
  | nil => intro gs key r; simp
  | cons img rest ih =>
    intro gs key r
    rw [List.foldl_cons, ih, addGroup_mem_iff]
    simp only [List.mem_cons]
    constructor
    · rintro ((h | h) | ⟨img', hmem, hk, hr⟩)
      · exact Or.inl h
      · exact Or.inr ⟨img, Or.inl rfl, h.1, h.2⟩
      · exact Or.inr ⟨img', Or.inr hmem, hk, hr⟩
    · rintro (h | ⟨img', rfl | hmem, hk, hr⟩)
      · exact Or.inl (Or.inl h)
      · exact Or.inl (Or.inr ⟨hk, hr⟩)
      · exact Or.inr ⟨img', hmem, hk, hr⟩

theorem uploadGroups_mem_iff (images : List ImageEntry)
    (key : String × List String) (r : String) :
    (∃ g ∈ uploadGroups images, keyEqB g.1 key = true ∧ r ∈ g.2) ↔
      (∃ img ∈ images, keyEqB (imgKey img) key = true ∧
        r ∈ img.registries) := by
  rw [uploadGroups, uploadGroups_aux]
  simp

theorem addGroup_nodup
    {gs : List ((String × List String) × List String)}
    (h : ∀ g ∈ gs, g.2.Nodup) (k : String × List String)
    (regs : List String) : ∀ g ∈ addGroup gs k regs, g.2.Nodup := by
  induction gs with
  | nil =>
    intro g hg
    rcases List.mem_singleton.mp hg with rfl
    exact unionRegs_nodup List.nodup_nil regs
  | cons g₀ rest ih =>
    rcases g₀ with ⟨k₀, rs₀⟩
    rw [addGroup]
    by_cases hk₀ : keyEqB k₀ k = true
    · rw [if_pos hk₀]
      intro g hg
      rcases List.mem_cons.mp hg with rfl | hg
      · exact unionRegs_nodup (h (k₀, rs₀) (List.mem_cons_self _ _)) regs
      · exact h g (List.mem_cons_of_mem _ hg)
    · rw [if_neg hk₀]
      intro g hg
      rcases List.mem_cons.mp hg with rfl | hg
      · exact h (k₀, rs₀) (List.mem_cons_self _ _)
      · exact ih (fun g' hg' => h g' (List.mem_cons_of_mem _ hg')) g hg

theorem uploadGroups_nodup (images : List ImageEntry) :
    ∀ g ∈ uploadGroups images, g.2.Nodup := by
  suffices h : ∀ (gs : List ((String × List String) × List String)),
      (∀ g ∈ gs, g.2.Nodup) →
      ∀ g ∈ images.foldl
        (fun gs img => addGroup gs (imgKey img) img.registries) gs,
        g.2.Nodup by
    exact h [] (by intro g hg; cases hg)
  induction images with
  | nil => intro gs h g hg; exact h g hg
  | cons img rest ih =>
    intro gs h g hg
    rw [List.foldl_cons] at hg
    exact ih _ (addGroup_nodup h (imgKey img) img.registries) g hg

/-! ### Totality and transitivity of the string order used by sorted -/

theorem charListLe_total : ∀ a b : List Char,
    charListLe a b = true ∨ charListLe b a = true := by
  intro a
  induction a with
  | nil => intro b; left; rfl
  | cons x xs ih =>
    intro b
    cases b with
    | nil => right; rfl
    | cons y ys =>
      rcases Nat.lt_trichotomy x.toNat y.toNat with h | h | h
      · left; simp [charListLe, h]
      · have h1 : ¬ x.toNat < y.toNat := by omega
        have h2 : ¬ y.toNat < x.toNat := by omega
        simp only [charListLe, if_neg h1, if_neg h2]
        exact ih ys
      · right; simp [charListLe, h]

theorem charListLe_trans : ∀ a b c : List Char,
    charListLe a b = true → charListLe b c = true →
    charListLe a c = true := by
  intro a
  induction a with
  | nil => intro b c _ _; rfl
  | cons x xs ih =>
    intro b c hab hbc
    cases b with
    | nil => simp [charListLe] at hab
    | cons y ys =>
      cases c with
      | nil => simp [charListLe] at hbc
      | cons z zs =>
        simp only [charListLe] at hab hbc ⊢
        by_cases hxy : x.toNat < y.toNat
        · by_cases hyz : y.toNat < z.toNat
          · rw [if_pos (by omega : x.toNat < z.toNat)]
          · by_cases hzy : z.toNat < y.toNat
            · rw [if_neg hyz, if_pos hzy] at hbc; cases hbc
            · rw [if_pos (by omega : x.toNat < z.toNat)]
        · by_cases hyx : y.toNat < x.toNat
          · rw [if_neg hxy, if_pos hyx] at hab; cases hab
          · by_cases hyz : y.toNat < z.toNat
            · rw [if_pos (by omega : x.toNat < z.toNat)]
            · by_cases hzy : z.toNat < y.toNat
              · rw [if_neg hyz, if_pos hzy] at hbc; cases hbc
              · rw [if_neg hxy, if_neg hyx] at hab
                rw [if_neg hyz, if_neg hzy] at hbc
                rw [if_neg (by omega : ¬ x.toNat < z.toNat),
                  if_neg (by omega : ¬ z.toNat < x.toNat)]
                exact ih ys zs hab hbc

instance : IsTotal String (fun a b => strLeb a b = true) :=
  ⟨fun a b => charListLe_total a.data b.data⟩

instance : IsTrans String (fun a b => strLeb a b = true) :=
  ⟨fun a b c => charListLe_trans a.data b.data c.data⟩

theorem sortStr_sorted (l : List String) :
    (sortStr l).Sorted (fun a b => strLeb a b = true) :=
  List.sorted_insertionSort _ l

theorem sortStr_perm (l : List String) : (sortStr l).Perm l :=
  List.perm_insertionSort _ l

theorem rowsForGroup_ok (registries : List (String × RegistryConfigEntry))
    (name tag aname : String) (proE : Bool) :
    ∀ (regs : List String) (rows : List UploadRow),
      rowsForGroup registries name tag aname proE regs = .ok rows →
      List.Forall₂ (fun rn row => ∃ rc,
        registries.lookup rn = some rc ∧
        row = ⟨name, tag, aname, proE, rc.uri, rc.auth.method,
          rc.auth.config⟩) regs rows := by
  intro regs
  induction regs with
  | nil =>
    intro rows h
    injection h with h
    rw [← h]
    exact List.Forall₂.nil
  | cons rn rs ih =>
    intro rows h
    rw [rowsForGroup] at h
    cases hl : registries.lookup rn with
    | none => rw [hl] at h; cases h
    | some rc =>
      rw [hl] at h
      cases hrec : rowsForGroup registries name tag aname proE rs with
      | error e => rw [hrec] at h; cases h
      | ok rows2 =>
        rw [hrec] at h
        injection h with h
        rw [← h]
        exact List.Forall₂.cons ⟨rc, hl, rfl⟩ (ih rows2 hrec)

theorem uploadGo_ok (env : Env)
    (registries : List (String × RegistryConfigEntry)) :
    ∀ (groups : List ((String × List String) × List String))
      (m : List UploadRow), uploadGo env registries groups = .ok m →
      List.Forall₂ (fun em row => ∃ rc nt,
        registries.lookup em.2 = some rc ∧
        image_name_and_tag env em.1.1 = .ok nt ∧
        row = ⟨nt.1, nt.2, artifact_name em.1.1 ++ uploadSuffix em.1.2,
          decide (0 < (setList em.1.2).length), rc.uri, rc.auth.method,
          rc.auth.config⟩)
        (groups.flatMap (fun g => (sortStr g.2).map (fun r => (g.1, r))))
        m := by
  intro groups
  induction groups with
  | nil =>
    intro m h
    injection h with h
    rw [← h]
    exact List.Forall₂.nil
  | cons g rest ih =>
    rcases g with ⟨k, regs⟩
    intro m h
    rw [uploadGo] at h
    by_cases hemp : regs.isEmpty = true
    · rw [if_pos hemp] at h
      have hreg : regs = [] := List.isEmpty_iff.mp hemp
      subst hreg
      rw [List.flatMap_cons, show sortStr [] = [] from rfl, List.map_nil,
        List.nil_append]
      exact ih m h
    · rw [if_neg hemp] at h
      cases hnt : image_name_and_tag env k.1 with
      | error e => rw [hnt] at h; cases h
      | ok nt =>
        rw [hnt] at h
        dsimp only at h
        cases hrows : rowsForGroup registries nt.1 nt.2
            (artifact_name k.1 ++ uploadSuffix k.2)
            (decide (0 < (setList k.2).length)) (sortStr regs) with
        | error e => rw [hrows] at h; cases h
        | ok rows =>
          rw [hrows] at h
          cases hrest : uploadGo env registries rest with
          | error e => rw [hrest] at h; cases h
          | ok rest2 =>
            rw [hrest] at h
            injection h with h
            rw [← h, List.flatMap_cons]
            apply List.rel_append
            · rw [List.forall₂_map_left_iff]
              have h2 := rowsForGroup_ok registries nt.1 nt.2
                (artifact_name k.1 ++ uploadSuffix k.2)
                (decide (0 < (setList k.2).length)) (sortStr regs) rows hrows
              refine List.Forall₂.imp ?_ h2
              rintro rn row ⟨rc, hlk, hrow⟩
              exact ⟨rc, nt, hlk, hnt, hrow⟩
            · exact ih rest2 hrest

/-- C6: on every successfully produced upload matrix, a group's registry
union contains a registry name iff some declared image entry with that
(directory, pro_services) key lists it; the matrix rows correspond
one-to-one, in order, to the (group, sorted registry) emissions (so empty
unions produce no rows); and every group's registry union is duplicate
free with its emissions sorted lexicographically. -/
theorem claim_C6_upload_matrix :
    ∀ (env : Env) (c : CIConfig) (m : List UploadRow),
      upload_matrix env c = .ok m →
      (∀ (key : String × List String) (r : String),
        (∃ g ∈ uploadGroups c.images, keyEqB g.1 key = true ∧ r ∈ g.2) ↔
        (∃ img ∈ c.images, keyEqB (imgKey img) key = true ∧
          r ∈ img.registries)) ∧
      List.Forall₂ (fun em row => ∃ rc nt,
        c.registries.lookup em.2 = some rc ∧
        image_name_and_tag env em.1.1 = .ok nt ∧
        row = ⟨nt.1, nt.2, artifact_name em.1.1 ++ uploadSuffix em.1.2,
          decide (0 < (setList em.1.2).length), rc.uri, rc.auth.method,
          rc.auth.config⟩) (uploadEmissions c.images) m ∧
      (∀ g ∈ uploadGroups c.images, g.2.Nodup ∧
        (sortStr g.2).Sorted (fun a b => strLeb a b = true) ∧
        (sortStr g.2).Perm g.2) := by
  intro env c m h
  exact ⟨fun key r => uploadGroups_mem_iff c.images key r,
    uploadGo_ok env c.registries _ m h,
    fun g hg => ⟨uploadGroups_nodup c.images g hg, sortStr_sorted g.2,
      sortStr_perm g.2⟩⟩

theorem claim_C6_upload_matrix_witness :
    upload_matrix c5Env c6Cfg = .ok
      [⟨"mock-rock", "1.0-24.04_edge", "mock-rock-1.0", false,
        "registry.a/u", .basic, .basic "AU" "AP"⟩,
       ⟨"mock-rock", "1.0-24.04_edge", "mock-rock-1.0", false,
        "registry.b/u", .bearer, .bearer "BT"⟩] ∧
    (∀ g ∈ uploadGroups c6Cfg.images, g.2.Nodup ∧
      (sortStr g.2).Sorted (fun a b => strLeb a b = true) ∧
      (sortStr g.2).Perm g.2) :=
  ⟨rfl, (claim_C6_upload_matrix c5Env c6Cfg _ rfl).2.2⟩

/-! ### Cross-reference validation lemmas -/

theorem findMissing_none_iff (keys : List String) :
    ∀ images : List ImageEntry,
      findMissingRegistry keys images = none ↔
        ∀ img ∈ images, ∀ r ∈ img.registries, keys.contains r = true := by
  intro images
  induction images with
  | nil => simp [findMissingRegistry]
  | cons img rest ih =>
    rw [findMissingRegistry]
    cases hf : img.registries.find? (fun r => !(keys.contains r)) with
    | some r =>
      dsimp only
      constructor
      · intro h; cases h
      · intro h
        have hm := List.mem_of_find?_eq_some hf
        have hp := List.find?_some hf
        rw [h img (List.mem_cons_self _ _) r hm] at hp
        cases hp
    | none =>
      dsimp only
      rw [ih]
      constructor
      · intro h img2 hmem r hr
        rcases List.mem_cons.mp hmem with rfl | hmem
        · have := List.find?_eq_none.mp hf r hr
          simpa using this
        · exact h img2 hmem r hr
      · intro h img2 hmem r hr
        exact h img2 (List.mem_cons_of_mem _ hmem) r hr

theorem findMissing_some (keys : List String) :
    ∀ (images : List ImageEntry) (r d : String),
      findMissingRegistry keys images = some (r, d) →
      ∃ img ∈ images, img.directory = d ∧ r ∈ img.registries ∧
        keys.contains r = false := by
  intro images
  induction images with
  | nil => intro r d h; cases h
  | cons img rest ih =>
    intro r d h
    rw [findMissingRegistry] at h
    cases hf : img.registries.find? (fun r => !(keys.contains r)) with
    | some r2 =>
      rw [hf] at h
      injection h with h
      injection h with h1 h2
      subst h1; subst h2
      refine ⟨img, List.mem_cons_self _ _, rfl,
        List.mem_of_find?_eq_some hf, ?_⟩
      have hp := List.find?_some hf
      simpa using hp
    | none =>
      rw [hf] at h
      obtain ⟨img2, hmem, hd, hr, hk⟩ := ih r d h
      exact ⟨img2, List.mem_cons_of_mem _ hmem, hd, hr, hk⟩

theorem ensure_registries_ok_iff (keys : List String)
    (images m : List ImageEntry) :
    ensure_image_registries_exist keys images = .ok m ↔
      (m = images ∧ ∀ img ∈ images, ∀ r ∈ img.registries,
        keys.contains r = true) := by
  rw [ensure_image_registries_exist]
  cases hf : findMissingRegistry keys images with
  | some rd =>
    rcases rd with ⟨r, d⟩
    dsimp only
    constructor
    · intro h; cases h
    · rintro ⟨rfl, hall⟩
      rw [(findMissing_none_iff keys _).mpr hall] at hf
      cases hf
  | none =>
    dsimp only
    constructor
    · intro h
      injection h with h
      exact ⟨h.symm, (findMissing_none_iff keys images).mp hf⟩
    · rintro ⟨rfl, -⟩; rfl

theorem expand_registries_src (globResult : List String) :
    ∀ (l out : List ImageEntry),
      expand_image_directories globResult l = .ok out →
      ∀ img ∈ out, ∃ src ∈ l, img.registries = src.registries := by
  intro l
  induction l with
  | nil =>
    intro out h img hm
    injection h with h
    rw [← h] at hm
    cases hm
  | cons i rest ih =>
    intro out h img hm
    rw [expand_image_directories] at h
    by_cases hc : i.directory.data.contains '*' = true
    · rw [if_pos hc] at h
      by_cases hne : i.directory ≠ "*"
      · rw [if_pos hne] at h; cases h
      · rw [if_neg hne] at h
        cases hrec : expand_image_directories globResult rest with
        | error e => rw [hrec] at h; cases h
        | ok tail =>
          rw [hrec] at h
          injection h with h
          rw [← h] at hm
          rcases List.mem_append.mp hm with hm | hm
          · obtain ⟨d, -, rfl⟩ := List.mem_map.mp hm
            exact ⟨i, List.mem_cons_self _ _, rfl⟩
          · obtain ⟨src, hsrc, hreg⟩ := ih tail hrec img hm
            exact ⟨src, List.mem_cons_of_mem _ hsrc, hreg⟩
    · rw [if_neg hc] at h
      cases hrec : expand_image_directories globResult rest with
      | error e => rw [hrec] at h; cases h
      | ok tail =>
        rw [hrec] at h
        injection h with h
        rw [← h] at hm
        rcases List.mem_cons.mp hm with rfl | hm
        · exact ⟨img, List.mem_cons_self _ _, rfl⟩
        · obtain ⟨src, hsrc, hreg⟩ := ih tail hrec img hm
          exact ⟨src, List.mem_cons_of_mem _ hsrc, hreg⟩

/-- C8: every registry name listed in any image entry must be a key of the
top-level registries mapping; a successful check returns the images
unchanged and holds exactly when all references exist, the first
violation produces an error naming both the missing registry and the
image's directory, and whole-configuration validation only succeeds with
all references (of the final, post-expansion image list) resolving. -/
theorem claim_C8_registry_references :
    (∀ (keys : List String) (images m : List ImageEntry),
      ensure_image_registries_exist keys images = .ok m ↔
        (m = images ∧ ∀ img ∈ images, ∀ r ∈ img.registries,
          keys.contains r = true)) ∧
    (∀ (keys : List String) (images : List ImageEntry),
      (∃ img ∈ images, ∃ r ∈ img.registries, keys.contains r = false) →
      ∃ img ∈ images, ∃ r ∈ img.registries, keys.contains r = false ∧
        ensure_image_registries_exist keys images =
          .error ("Registry " ++ sq r ++ " in image " ++
            sq img.directory ++ " is not defined in registries.")) ∧
    (∀ (globResult : List String) (raw : RawCIConfig) (c : CIConfig),
      validateCIConfig globResult raw = .ok c →
      ∀ img ∈ c.images, ∀ r ∈ img.registries,
        (c.registries.map (fun nr => nr.1)).contains r = true) := by
  refine ⟨ensure_registries_ok_iff, ?_, ?_⟩
  · intro keys images hex
    cases hf : findMissingRegistry keys images with
    | none =>
      exfalso
      obtain ⟨img, hmem, r, hr, hk⟩ := hex
      have := (findMissing_none_iff keys images).mp hf img hmem r hr
      rw [this] at hk
      cases hk
    | some rd =>
      rcases rd with ⟨r, d⟩
      obtain ⟨img, hmem, hd, hr, hk⟩ := findMissing_some keys images r d hf
      refine ⟨img, hmem, r, hr, hk, ?_⟩
      rw [ensure_image_registries_exist, hf, hd]
  · intro globResult raw c h
    rw [validateCIConfig] at h
    split at h
    · cases h
    · split at h
      · cases h
      · rename_i ghcr hg
        split at h
        · cases h
        · rename_i registries hreg
          split at h
          · cases h
          · rename_i images₀ himg
            split at h
            · cases h
            · rename_i images₁ hens
              split at h
              · cases h
              · rename_i images₂ hexp
                injection h with h
                subst h
                intro img hmem r hr
                obtain ⟨src, hsrc, hregeq⟩ :=
                  expand_registries_src globResult images₁ images₂ hexp
                    img hmem
                rw [hregeq] at hr
                have hok := (ensure_registries_ok_iff
                  (registries.map (fun nr => nr.1)) images₀ images₁).mp hens
                exact hok.2 src (by rw [← hok.1]; exact hsrc) r hr

theorem claim_C8_registry_references_witness :
    ∃ img ∈ [ImageEntry.mk "rock/1.0" [] ["ghost"]],
      ∃ r ∈ img.registries,
        (["docker.io"] : List String).contains r = false ∧
        ensure_image_registries_exist ["docker.io"]
            [ImageEntry.mk "rock/1.0" [] ["ghost"]] =
          .error ("Registry " ++ sq r ++ " in image " ++ sq img.directory ++
            " is not defined in registries.") :=
  claim_C8_registry_references.2.1 ["docker.io"]
    [ImageEntry.mk "rock/1.0" [] ["ghost"]] (by decide)

end RockCI
